import Mathlib

/-!
Shallow embedding of the m-molecula741/shortener URL-shortening service:
the storage backends (volatile in-memory map with ownership index, and the
relational backend modelled row-for-row after the SQL in postgres.go), the
registry service operations (Shorten, Expand, DeleteUserURLs), the
asynchronous deletion pipeline (bounded queue, batch collector, batch
applier), and the random short-ID generator (6 bytes, URL-safe base64,
8 characters).

Go maps are modelled as association lists with unique keys, updated in
place; channels as lists; the collector's timer as an explicit event.
-/

namespace Shortener

/-- Association-list lookup, modelling a Go map read m[k]. -/
def alookup {α : Type} : List (String × α) → String → Option α
  | [], _ => none
  | (k1, v) :: rest, k => if k1 = k then some v else alookup rest k

/-- Association-list update, modelling a Go map write m[k] = v:
replaces the binding for k if present, otherwise appends it. -/
def mapInsert {α : Type} : List (String × α) → String → α → List (String × α)
  | [], k, v => [(k, v)]
  | (k1, v1) :: rest, k, v =>
      if k1 = k then (k, v) :: rest else (k1, v1) :: mapInsert rest k v

/-- Association-list removal, modelling a Go delete(m, k). -/
def mapErase {α : Type} : List (String × α) → String → List (String × α)
  | [], _ => []
  | (k1, v1) :: rest, k =>
      if k1 = k then mapErase rest k else (k1, v1) :: mapErase rest k

/-- Removal of the first occurrence of an element from a list, modelling
the append(slice[:i], slice[i+1:]...) idiom with break in
InMemoryStorage.BatchDeleteUserURLs. -/
def removeFirst : List String → String → List String
  | [], _ => []
  | x :: xs, y => if x = y then xs else x :: removeFirst xs y

/-- DeleteRequest from service.go: a user's request to delete short IDs. -/
structure DeleteRequest where
  UserID : String
  ShortIDs : List String
deriving DecidableEq

/-- URLPair from models.go: one entry of a SaveBatch call. -/
structure URLPair where
  ShortID : String
  OriginalURL : String
  UserID : String
deriving DecidableEq

/-- Result of a Get/Expand lookup. The Go code signals notFound with
ErrNotFound (memory) or a wrapped scan error (postgres), and gone with
ErrURLDeleted; here the three outcomes are a sum. -/
inductive GetResult where
  | found (url : String)
  | notFound
  | gone
deriving DecidableEq

/-- InMemoryStorage from part_006: urls maps shortID to originalURL,
users maps userID to the list of that user's shortIDs. -/
structure InMemoryStorage where
  urls : List (String × String)
  users : List (String × List String)
deriving DecidableEq

/-- Result of InMemoryStorage.Save: nil, or ErrURLConflict carrying the
existing mapping's shortID. -/
inductive MemSaveResult where
  | ok (st : InMemoryStorage)
  | conflict (existingShortID : String)
deriving DecidableEq

/-- The conflict scan in InMemoryStorage.Save: the range loop over s.urls
looking for an entry whose value equals the URL being saved. -/
def findByURL : List (String × String) → String → Option (String × String)
  | [], _ => none
  | (k, u) :: rest, url => if u = url then some (k, u) else findByURL rest url

/-- InMemoryStorage.Save: returns ErrURLConflict with the existing shortID
if some entry already stores this URL, otherwise writes urls[shortID] = url. -/
def InMemoryStorage.save (s : InMemoryStorage) (shortID url : String) :
    MemSaveResult :=
  match findByURL s.urls url with
  | some p => .conflict p.1
  | none => .ok { s with urls := mapInsert s.urls shortID url }

/-- InMemoryStorage.Get: ErrNotFound if the key is absent, else the URL.
This backend has no deleted flag, so it never reports gone. -/
def InMemoryStorage.get (s : InMemoryStorage) (shortID : String) : GetResult :=
  match alookup s.urls shortID with
  | some url => .found url
  | none => .notFound

/-- First half of one iteration of the loop in InMemoryStorage.SaveBatch:
insert the URL only if the shortID is absent. -/
def memSaveURLStep (s : InMemoryStorage) (p : URLPair) : InMemoryStorage :=
  if (alookup s.urls p.ShortID).isSome then s
  else { s with urls := mapInsert s.urls p.ShortID p.OriginalURL }

/-- Second half of one iteration of the loop in InMemoryStorage.SaveBatch:
when UserID is non-empty, append the shortID to that user's list unless it
is already there. -/
def memLinkUserStep (s : InMemoryStorage) (p : URLPair) : InMemoryStorage :=
  if p.UserID = "" then s
  else
    let ids := (alookup s.users p.UserID).getD []
    if p.ShortID ∈ ids then s
    else { s with users := mapInsert s.users p.UserID (ids ++ [p.ShortID]) }

/-- One iteration of the loop in InMemoryStorage.SaveBatch. -/
def memSaveBatchStep (s : InMemoryStorage) (p : URLPair) : InMemoryStorage :=
  memLinkUserStep (memSaveURLStep s p) p

/-- InMemoryStorage.SaveBatch: the loop over all pairs under one lock. -/
def InMemoryStorage.saveBatch (s : InMemoryStorage) (pairs : List URLPair) :
    InMemoryStorage :=
  pairs.foldl memSaveBatchStep s

/-- One iteration of the loop in InMemoryStorage.BatchDeleteUserURLs: if
the shortID exists in urls, remove its first occurrence from the given
user's list (when that user has a list) and then delete it from urls —
regardless of which user actually owns it. -/
def memDeleteStep (s : InMemoryStorage) (userID shortID : String) :
    InMemoryStorage :=
  if (alookup s.urls shortID).isSome then
    let users1 :=
      match alookup s.users userID with
      | some ids => mapInsert s.users userID (removeFirst ids shortID)
      | none => s.users
    { urls := mapErase s.urls shortID, users := users1 }
  else s

/-- InMemoryStorage.BatchDeleteUserURLs: the loop over shortIDs. -/
def InMemoryStorage.batchDeleteUserURLs (s : InMemoryStorage)
    (userID : String) (shortIDs : List String) : InMemoryStorage :=
  shortIDs.foldl (fun st sid => memDeleteStep st userID sid) s

/-- A row of the urls table created by postgres.go: short_id primary key,
unique index on original_url, nullable user_id, is_deleted default false. -/
structure PGRow where
  short_id : String
  original_url : String
  user_id : Option String
  is_deleted : Bool
deriving DecidableEq

/-- PostgresStorage: the urls table as a list of rows. -/
structure PostgresStorage where
  rows : List PGRow
deriving DecidableEq

/-- First row matching a short_id, modelling SELECT ... WHERE short_id = $1
under the primary-key uniqueness of short_id. -/
def findRow : List PGRow → String → Option PGRow
  | [], _ => none
  | r :: rest, sid => if r.short_id = sid then some r else findRow rest sid

/-- First row matching an original_url, modelling
SELECT short_id FROM urls WHERE original_url = $1. -/
def findRowByURL : List PGRow → String → Option PGRow
  | [], _ => none
  | r :: rest, url => if r.original_url = url then some r else findRowByURL rest url

/-- Result of PostgresStorage.Save: nil, ErrURLConflict with the existing
short_id (unique violation on idx_urls_original_url), or any other error
(for instance a primary-key violation on short_id). -/
inductive PGSaveResult where
  | ok (st : PostgresStorage)
  | conflict (existingShortID : String)
  | otherError
deriving DecidableEq

/-- PostgresStorage.Save: INSERT (short_id, original_url); on a unique
violation of idx_urls_original_url, select the existing short_id and
return ErrURLConflict; other unique violations surface as a plain error. -/
def PostgresStorage.save (s : PostgresStorage) (shortID url : String) :
    PGSaveResult :=
  match findRowByURL s.rows url with
  | some r => .conflict r.short_id
  | none =>
      if (findRow s.rows shortID).isSome then .otherError
      else .ok { rows := s.rows ++
            [{ short_id := shortID, original_url := url,
               user_id := none, is_deleted := false }] }

/-- PostgresStorage.Get: SELECT original_url, is_deleted WHERE short_id;
no row is NotFound, is_deleted = true is ErrURLDeleted (gone). -/
def PostgresStorage.get (s : PostgresStorage) (shortID : String) : GetResult :=
  match findRow s.rows shortID with
  | none => .notFound
  | some r => if r.is_deleted then .gone else .found r.original_url

/-- One INSERT ... ON CONFLICT (short_id) DO UPDATE SET user_id =
EXCLUDED.user_id WHERE urls.user_id IS NULL, from PostgresStorage.SaveBatch.
The Go driver always passes a string value for user_id, so fresh rows get
some p.UserID (possibly some ""), never NULL. -/
def pgUpsert (rows : List PGRow) (p : URLPair) : List PGRow :=
  if (findRow rows p.ShortID).isSome then
    rows.map (fun r =>
      if r.short_id = p.ShortID ∧ r.user_id = none
      then { r with user_id := some p.UserID } else r)
  else rows ++
    [{ short_id := p.ShortID, original_url := p.OriginalURL,
       user_id := some p.UserID, is_deleted := false }]

/-- PostgresStorage.SaveBatch: all upserts in one transaction. -/
def PostgresStorage.saveBatch (s : PostgresStorage) (pairs : List URLPair) :
    PostgresStorage :=
  { rows := pairs.foldl pgUpsert s.rows }

/-- PostgresStorage.BatchDeleteUserURLs: returns at once on an empty list,
otherwise UPDATE urls SET is_deleted = TRUE WHERE user_id = $1 AND
short_id = ANY($2). -/
def PostgresStorage.batchDeleteUserURLs (s : PostgresStorage)
    (userID : String) (shortIDs : List String) : PostgresStorage :=
  if shortIDs = [] then s
  else { rows := s.rows.map (fun r =>
          if r.user_id = some userID ∧ r.short_id ∈ shortIDs
          then { r with is_deleted := true } else r) }

/-- Outcome of URLService.Shorten as seen by its caller: the returned
short URL on success, or the ErrURLConflict carrying the existing short
URL (the service returns that URL in both positions on conflict). -/
inductive ShortenOutcome where
  | ok (shortURL : String)
  | conflict (existingShortURL : String)
  | err
deriving DecidableEq

/-- URLService.Shorten over the in-memory backend. generateShortID is
random, so the fresh ID is a parameter; NewURLService normalizes baseURL
to end in a slash, so base stands for that normalized prefix. On success
the service returns base ++ freshID; on conflict it returns
base ++ existingShortID (the stored conflict value is the bare shortID). -/
def shorten (base : String) (st : InMemoryStorage) (freshID url : String) :
    ShortenOutcome × InMemoryStorage :=
  match st.save freshID url with
  | .ok st1 => (.ok (base ++ freshID), st1)
  | .conflict k => (.conflict (base ++ k), st)

/-- URLService.Shorten over the relational backend. -/
def pgShorten (base : String) (st : PostgresStorage) (freshID url : String) :
    ShortenOutcome × PostgresStorage :=
  match st.save freshID url with
  | .ok st1 => (.ok (base ++ freshID), st1)
  | .conflict k => (.conflict (base ++ k), st)
  | .otherError => (.err, st)

/-- Capacity of the buffered deletion channel: make(chan DeleteRequest, 100). -/
def deleteChanCapacity : Nat := 100

/-- Outcome of URLService.DeleteUserURLs: nil, or ErrDeleteChannelFull. -/
inductive EnqueueResult where
  | accepted
  | queueFull
deriving DecidableEq

/-- URLService.DeleteUserURLs: empty shortIDs return nil at once; otherwise
a non-blocking select sends the request into the buffered channel if it has
free space and returns ErrDeleteChannelFull otherwise. The channel content
is the list of pending requests. -/
def deleteUserURLs (q : List DeleteRequest) (userID : String)
    (shortIDs : List String) : EnqueueResult × List DeleteRequest :=
  if shortIDs = [] then (.accepted, q)
  else if q.length < deleteChanCapacity then
    (.accepted, q ++ [{ UserID := userID, ShortIDs := shortIDs }])
  else (.queueFull, q)

/-- Maximum batch size of the collector (maxBatchSize in batchCollector). -/
def maxBatchSize : Nat := 10

/-- Batch timeout of the collector in milliseconds (batchTimeout =
100 * time.Millisecond). The timer is armed when the first request enters
an empty batch; its firing is the timerFire event below. -/
def batchTimeoutMs : Nat := 100

/-- Events observed by one batchCollector goroutine in its select loop:
a request received from the delete channel, the flush timer firing
(armed batchTimeoutMs after the first request of the current batch), or
the delete channel reported closed. -/
inductive CollectorEvent where
  | recv (r : DeleteRequest)
  | timerFire
  | closed
deriving DecidableEq

/-- One iteration of the select loop in URLService.batchCollector, from
the current partial batch: returns the new partial batch and the batches
sent downstream to batchChan. On recv the request is appended and the
batch is flushed once its size reaches maxBatchSize; on the timer a
non-empty batch is flushed; on channel closure a non-empty partial batch
is flushed before the goroutine returns. -/
def collectorStep (batch : List DeleteRequest) :
    CollectorEvent → List DeleteRequest × List (List DeleteRequest)
  | .recv r =>
      let b := batch ++ [r]
      if maxBatchSize ≤ b.length then ([], [b]) else (b, [])
  | .timerFire => if batch = [] then (batch, []) else ([], [batch])
  | .closed => ([], if batch = [] then [] else [batch])

/-- A run of the collector loop over a sequence of events: the batches
sent downstream, in order, and the partial batch still held at the end. -/
def collectorRun (batch : List DeleteRequest) :
    List CollectorEvent → List (List DeleteRequest) × List DeleteRequest
  | [] => ([], batch)
  | e :: es =>
      let step := collectorStep batch e
      let rest := collectorRun step.1 es
      (step.2 ++ rest.1, rest.2)

/-- The requests carried by the recv events of a trace. -/
def recvPayloads : List CollectorEvent → List DeleteRequest
  | [] => []
  | .recv r :: es => r :: recvPayloads es
  | .timerFire :: es => recvPayloads es
  | .closed :: es => recvPayloads es

/-- The grouping loop of URLService.processBatch:
userBatches[req.UserID] = append(userBatches[req.UserID], req.ShortIDs...)
over the batch, starting from the accumulator. -/
def userBatches : List DeleteRequest → List (String × List String) →
    List (String × List String)
  | [], acc => acc
  | r :: rest, acc =>
      userBatches rest
        (mapInsert acc r.UserID ((alookup acc r.UserID).getD [] ++ r.ShortIDs))

/-- The delivery loop of URLService.processBatch: one
storage.BatchDeleteUserURLs call per group, its error discarded (_ = err),
so a failed call leaves the store as it was and the loop continues. The
store operation is a parameter returning none on error. -/
def applyCalls {σ : Type} (op : String → List String → σ → Option σ) :
    List (String × List String) → σ → σ
  | [], st => st
  | g :: gs, st =>
      match op g.1 g.2 st with
      | some st1 => applyCalls op gs st1
      | none => applyCalls op gs st

/-- URLService.processBatch: group the batch by UserID, then issue one
bulk delete per group. It returns only the store state: no error. -/
def processBatch {σ : Type} (op : String → List String → σ → Option σ)
    (batch : List DeleteRequest) (st : σ) : σ :=
  applyCalls op (userBatches batch []) st

/-- Concatenation, in batch order, of the ShortIDs of the requests of one
owner. Written from the spec wording for the grouping refinement
(merges per owner, concatenating shortID lists in batch order), to be
compared with userBatches. -/
def specOwnerConcat : List DeleteRequest → String → List String
  | [], _ => []
  | r :: rest, uid =>
      if r.UserID = uid then r.ShortIDs ++ specOwnerConcat rest uid
      else specOwnerConcat rest uid

/-- The URL-safe base64 alphabet used by base64.URLEncoding. -/
def b64url : List Char :=
  "ABCDEFGHIJKLMNOPQRSTUVWXYZabcdefghijklmnopqrstuvwxyz0123456789-_".toList

/-- Index into the base64 alphabet. -/
def b64char (n : Nat) : Char := b64url.getD n 'A'

/-- Encoding of one 3-byte group into 4 base64 characters. -/
def encode3 (b0 b1 b2 : Nat) : List Char :=
  [b64char (b0 / 4), b64char (b0 % 4 * 16 + b1 / 16),
   b64char (b1 % 16 * 4 + b2 / 64), b64char (b2 % 64)]

/-- base64.URLEncoding.WithPadding(NoPadding).EncodeToString over a byte
sequence: full 3-byte groups give 4 characters, a 1- or 2-byte tail gives
2 or 3 characters and no padding. -/
def b64encode : List Nat → List Char
  | [] => []
  | [b0] => [b64char (b0 / 4), b64char (b0 % 4 * 16)]
  | [b0, b1] => [b64char (b0 / 4), b64char (b0 % 4 * 16 + b1 / 16),
                 b64char (b1 % 16 * 4)]
  | b0 :: b1 :: b2 :: rest => encode3 b0 b1 b2 ++ b64encode rest

/-- generateShortID: read 6 bytes from crypto/rand (none models a failed
rand.Read, in which case the error is returned), base64-url-encode them
and keep the first 8 characters. -/
def generateShortID (randBytes : Option (List Nat)) : Option String :=
  match randBytes with
  | none => none
  | some b => some ((b64encode b).take 8).asString

/-! ### Association-list lemmas -/

theorem alookup_mapInsert_self {α : Type} (l : List (String × α)) (k : String)
    (v : α) : alookup (mapInsert l k v) k = some v := by
  induction l with
  | nil => simp [mapInsert, alookup]
  | cons p rest ih =>
      obtain ⟨k1, v1⟩ := p
      by_cases h : k1 = k
      · simp [mapInsert, h, alookup]
      · simp [mapInsert, h, alookup, ih]

theorem alookup_mapInsert_ne {α : Type} (l : List (String × α)) (k u : String)
    (v : α) (h : u ≠ k) : alookup (mapInsert l k v) u = alookup l u := by
  induction l with
  | nil => simp [mapInsert, alookup, Ne.symm h]
  | cons p rest ih =>
      obtain ⟨k1, v1⟩ := p
      by_cases h1 : k1 = k
      · subst h1
        simp [mapInsert, alookup, Ne.symm h]
      · simp only [mapInsert, if_neg h1, alookup]
        rw [ih]

theorem mem_mapInsert_self {α : Type} (l : List (String × α)) (k : String)
    (v : α) : (k, v) ∈ mapInsert l k v := by
  induction l with
  | nil => simp [mapInsert]
  | cons p rest ih =>
      obtain ⟨k1, v1⟩ := p
      by_cases h : k1 = k <;> simp [mapInsert, h, ih]

theorem mem_of_mem_mapInsert {α : Type} {l : List (String × α)}
    {k : String} {v : α} {p : String × α} (hp : p ∈ mapInsert l k v) :
    p = (k, v) ∨ p ∈ l := by
  induction l with
  | nil => simpa [mapInsert] using hp
  | cons q rest ih =>
      obtain ⟨k1, v1⟩ := q
      by_cases h : k1 = k
      · subst h
        rw [mapInsert, if_pos rfl] at hp
        rcases List.mem_cons.mp hp with h1 | h1
        · exact Or.inl h1
        · exact Or.inr (List.mem_cons_of_mem _ h1)
      · rw [mapInsert, if_neg h] at hp
        rcases List.mem_cons.mp hp with h1 | h1
        · exact Or.inr (h1 ▸ List.mem_cons_self _ _)
        · rcases ih h1 with h2 | h2
          · exact Or.inl h2
          · exact Or.inr (List.mem_cons_of_mem _ h2)

/-! ### Conflict-scan lemmas for the volatile backend -/

theorem findByURL_eq_some {l : List (String × String)} {k u : String}
    (hmem : (k, u) ∈ l) (huniq : ∀ k1, (k1, u) ∈ l → k1 = k) :
    findByURL l u = some (k, u) := by
  induction l with
  | nil => cases hmem
  | cons p rest ih =>
      obtain ⟨k1, u1⟩ := p
      by_cases h : u1 = u
      · subst h
        have : k1 = k := huniq k1 (List.mem_cons_self _ _)
        subst this
        simp [findByURL]
      · have hmem1 : (k, u) ∈ rest := by
          rcases List.mem_cons.mp hmem with h1 | h1
          · exact absurd (congrArg Prod.snd h1).symm h
          · exact h1
        have huniq1 : ∀ k1, (k1, u) ∈ rest → k1 = k := fun k2 h2 =>
          huniq k2 (List.mem_cons_of_mem _ h2)
        simp [findByURL, h, ih hmem1 huniq1]

theorem findByURL_eq_none {l : List (String × String)} {u : String}
    (h : ∀ k, (k, u) ∉ l) : findByURL l u = none := by
  induction l with
  | nil => rfl
  | cons p rest ih =>
      obtain ⟨k1, u1⟩ := p
      have h1 : u1 ≠ u := by
        intro hcon
        subst hcon
        exact h k1 (List.mem_cons_self _ _)
      have h2 : ∀ k, (k, u) ∉ rest := fun k hk =>
        h k (List.mem_cons_of_mem _ hk)
      simp [findByURL, h1, ih h2]

/-- The Save conflict path of the volatile backend: when the store holds a
mapping with the requested URL (uniquely), Save reports that mapping's
shortID and nothing is inserted. -/
theorem memSave_conflict {st : InMemoryStorage} {u k : String}
    (hmem : (k, u) ∈ st.urls) (huniq : ∀ k1, (k1, u) ∈ st.urls → k1 = k)
    (fresh : String) : st.save fresh u = .conflict k := by
  unfold InMemoryStorage.save
  rw [findByURL_eq_some hmem huniq]

theorem findRowByURL_eq_some {l : List PGRow} {u : String} {r : PGRow}
    (hmem : r ∈ l) (hurl : r.original_url = u) :
    ∃ r1, findRowByURL l u = some r1 ∧ r1 ∈ l ∧ r1.original_url = u := by
  induction l with
  | nil => cases hmem
  | cons q rest ih =>
      by_cases h : q.original_url = u
      · exact ⟨q, by simp [findRowByURL, h], List.mem_cons_self _ _, h⟩
      · rcases List.mem_cons.mp hmem with h1 | h1
        · exact absurd (h1 ▸ hurl) h
        · obtain ⟨r1, hf, hm, hu⟩ := ih h1
          exact ⟨r1, by simp [findRowByURL, h, hf],
            List.mem_cons_of_mem _ hm, hu⟩

theorem findRowByURL_eq_none {l : List PGRow} {u : String}
    (h : ∀ r ∈ l, r.original_url ≠ u) : findRowByURL l u = none := by
  induction l with
  | nil => rfl
  | cons q rest ih =>
      have h1 : q.original_url ≠ u := h q (List.mem_cons_self _ _)
      simp only [findRowByURL, if_neg h1]
      exact ih (fun r hr => h r (List.mem_cons_of_mem _ hr))

theorem findRow_eq_none {l : List PGRow} {s : String}
    (h : ∀ r ∈ l, r.short_id ≠ s) : findRow l s = none := by
  induction l with
  | nil => rfl
  | cons q rest ih =>
      have h1 : q.short_id ≠ s := h q (List.mem_cons_self _ _)
      simp only [findRow, if_neg h1]
      exact ih (fun r hr => h r (List.mem_cons_of_mem _ hr))

/-- The Save conflict path of the relational backend: a unique violation
on idx_urls_original_url makes Save select the existing row's short_id
and return ErrURLConflict with it, inserting nothing; under the unique
index every stored row with this URL carries the same short_id. -/
theorem pgShorten_conflict {st : PostgresStorage} {u : String} {r : PGRow}
    (hmem : r ∈ st.rows) (hurl : r.original_url = u)
    (huniq : ∀ r1 ∈ st.rows, r1.original_url = u → r1.short_id = r.short_id)
    (base fresh : String) :
    pgShorten base st fresh u = (.conflict (base ++ r.short_id), st) := by
  obtain ⟨r1, hf, hm1, hu1⟩ := findRowByURL_eq_some hmem hurl
  have hsave : st.save fresh u = .conflict r.short_id := by
    unfold PostgresStorage.save
    rw [hf]
    show PGSaveResult.conflict r1.short_id = PGSaveResult.conflict r.short_id
    rw [huniq r1 hm1 hu1]
  unfold pgShorten
  rw [hsave]

/-- C1: in both backends, if a non-deleted mapping with the requested
original URL already exists (volatile backend: every stored mapping is
non-deleted; relational backend: the unique index makes its short_id the
only one for that URL), Shorten returns a Conflict whose existing short
ID is that mapping's shortID prefixed with the base URL, and the store
is unchanged; consequently two Shorten calls with the same URL yield ok
then a Conflict carrying the first call's short ID. -/
theorem shorten_conflict_on_existing_url :
    (∀ (st : InMemoryStorage) (base fresh u k : String),
        (k, u) ∈ st.urls →
        (∀ k1, (k1, u) ∈ st.urls → k1 = k) →
        shorten base st fresh u = (.conflict (base ++ k), st)) ∧
    (∀ (st : InMemoryStorage) (base f1 f2 u : String),
        (∀ k, (k, u) ∉ st.urls) →
        (shorten base st f1 u).1 = .ok (base ++ f1) ∧
        shorten base (shorten base st f1 u).2 f2 u
          = (.conflict (base ++ f1), (shorten base st f1 u).2)) ∧
    (∀ (st : PostgresStorage) (base fresh u : String) (r : PGRow),
        r ∈ st.rows → r.original_url = u → r.is_deleted = false →
        (∀ r1 ∈ st.rows, r1.original_url = u → r1.short_id = r.short_id) →
        pgShorten base st fresh u = (.conflict (base ++ r.short_id), st)) ∧
    (∀ (st : PostgresStorage) (base f1 f2 u : String),
        (∀ r ∈ st.rows, r.original_url ≠ u) →
        (∀ r ∈ st.rows, r.short_id ≠ f1) →
        (pgShorten base st f1 u).1 = .ok (base ++ f1) ∧
        pgShorten base (pgShorten base st f1 u).2 f2 u
          = (.conflict (base ++ f1), (pgShorten base st f1 u).2)) := by
  refine ⟨?_, ?_, ?_, ?_⟩
  · intro st base fresh u k hmem huniq
    unfold shorten
    rw [memSave_conflict hmem huniq]
  · intro st base f1 f2 u h
    have hsave : st.save f1 u = .ok { st with urls := mapInsert st.urls f1 u } := by
      unfold InMemoryStorage.save
      rw [findByURL_eq_none h]
    have hfst : shorten base st f1 u
        = (.ok (base ++ f1), { st with urls := mapInsert st.urls f1 u }) := by
      unfold shorten
      rw [hsave]
    refine ⟨by rw [hfst], ?_⟩
    rw [hfst]
    have hmem1 : (f1, u) ∈ (mapInsert st.urls f1 u) := mem_mapInsert_self _ _ _
    have huniq1 : ∀ k1, (k1, u) ∈ mapInsert st.urls f1 u → k1 = f1 := by
      intro k1 hk1
      rcases mem_of_mem_mapInsert hk1 with h1 | h1
      · exact congrArg Prod.fst h1
      · exact absurd h1 (h k1)
    unfold shorten
    rw [memSave_conflict hmem1 huniq1]
  · intro st base fresh u r hmem hurl hdel huniq
    exact pgShorten_conflict hmem hurl huniq base fresh
  · intro st base f1 f2 u hno hfresh
    have hsave : st.save f1 u
        = .ok ⟨st.rows ++ [(⟨f1, u, none, false⟩ : PGRow)]⟩ := by
      unfold PostgresStorage.save
      rw [findRowByURL_eq_none hno, findRow_eq_none hfresh]
      rfl
    have hfst : pgShorten base st f1 u
        = (.ok (base ++ f1), ⟨st.rows ++ [(⟨f1, u, none, false⟩ : PGRow)]⟩) := by
      unfold pgShorten
      rw [hsave]
    refine ⟨by rw [hfst], ?_⟩
    rw [hfst]
    have hmem1 : (⟨f1, u, none, false⟩ : PGRow)
        ∈ st.rows ++ [(⟨f1, u, none, false⟩ : PGRow)] :=
      List.mem_append_right _ (List.mem_singleton.mpr rfl)
    have huniq1 : ∀ r1 ∈ st.rows ++ [(⟨f1, u, none, false⟩ : PGRow)],
        r1.original_url = u → r1.short_id = f1 := by
      intro r1 h1 h2
      rcases List.mem_append.mp h1 with h3 | h3
      · exact absurd h2 (hno r1 h3)
      · rw [List.mem_singleton.mp h3]
    exact pgShorten_conflict hmem1 rfl huniq1 base f2

/-- Witness for C1 at concrete stores, one per backend. -/
theorem shorten_conflict_on_existing_url_witness :
    shorten "http://b/" ⟨[("k1", "u1")], []⟩ "k2" "u1"
      = (.conflict ("http://b/" ++ "k1"), ⟨[("k1", "u1")], []⟩) ∧
    (shorten "http://b/" (⟨[], []⟩ : InMemoryStorage) "k1" "u1").1
      = .ok ("http://b/" ++ "k1") ∧
    pgShorten "http://b/" ⟨[⟨"k1", "u1", none, false⟩]⟩ "k2" "u1"
      = (.conflict ("http://b/" ++ "k1"), ⟨[⟨"k1", "u1", none, false⟩]⟩) ∧
    (pgShorten "http://b/" (⟨[]⟩ : PostgresStorage) "k1" "u1").1
      = .ok ("http://b/" ++ "k1") :=
  ⟨shorten_conflict_on_existing_url.1 ⟨[("k1", "u1")], []⟩ "http://b/" "k2"
      "u1" "k1" (by decide)
      (fun k1 hk1 => congrArg Prod.fst (List.mem_singleton.mp hk1)),
   (shorten_conflict_on_existing_url.2.1 ⟨[], []⟩ "http://b/" "k1" "k2" "u1"
      (fun k hk => List.not_mem_nil _ hk)).1,
   shorten_conflict_on_existing_url.2.2.1 ⟨[⟨"k1", "u1", none, false⟩]⟩
      "http://b/" "k2" "u1" ⟨"k1", "u1", none, false⟩ (by decide) (by decide)
      (by decide) (by decide),
   (shorten_conflict_on_existing_url.2.2.2 ⟨[]⟩ "http://b/" "k1" "k2" "u1"
      (by decide) (by decide)).1⟩

/-- C5: the deletion enqueue is non-blocking; with free space in the
100-request buffer the request is appended and nil is returned; with the
buffer at capacity, ErrDeleteChannelFull is returned at once and the
queue is unchanged. -/
theorem delete_enqueue_bounded :
    (∀ (q : List DeleteRequest) (uid : String) (ids : List String),
        ids ≠ [] → q.length < deleteChanCapacity →
        deleteUserURLs q uid ids
          = (.accepted, q ++ [{ UserID := uid, ShortIDs := ids }])) ∧
    (∀ (q : List DeleteRequest) (uid : String) (ids : List String),
        ids ≠ [] → deleteChanCapacity ≤ q.length →
        deleteUserURLs q uid ids = (.queueFull, q)) := by
  constructor
  · intro q uid ids h1 h2
    simp [deleteUserURLs, h1, h2]
  · intro q uid ids h1 h2
    simp [deleteUserURLs, h1, Nat.not_lt.mpr h2]

/-- Witness for C5: one enqueue into an empty queue, one into a full one. -/
theorem delete_enqueue_bounded_witness :
    deleteUserURLs [] "A" ["s1"]
      = (.accepted, [{ UserID := "A", ShortIDs := ["s1"] }]) ∧
    deleteUserURLs
        (List.replicate 100 { UserID := "A", ShortIDs := ["s1"] }) "B" ["s2"]
      = (.queueFull, List.replicate 100 { UserID := "A", ShortIDs := ["s1"] }) :=
  ⟨delete_enqueue_bounded.1 [] "A" ["s1"] (by decide) (by decide),
   delete_enqueue_bounded.2 _ "B" ["s2"] (by decide)
     (by simp [deleteChanCapacity])⟩

/-- C10: DeleteUserURLs with an empty shortID list returns nil at once
and leaves the deletion queue untouched. -/
theorem delete_empty_ids_noop :
    ∀ (q : List DeleteRequest) (uid : String),
      deleteUserURLs q uid [] = (.accepted, q) := by
  intro q uid
  simp [deleteUserURLs]

/-! ### Lookup lemmas for deletion -/

theorem alookup_mapErase {α : Type} (l : List (String × α)) (k y : String) :
    alookup (mapErase l k) y = if y = k then none else alookup l y := by
  induction l with
  | nil => simp [mapErase, alookup]
  | cons p rest ih =>
      obtain ⟨k1, v1⟩ := p
      by_cases h1 : k1 = k
      · subst h1
        simp only [mapErase, if_pos rfl, alookup, if_true]
        rw [ih]
        by_cases h2 : y = k1
        · simp [h2]
        · simp [h2, Ne.symm h2]
      · simp only [mapErase, if_neg h1, alookup]
        rw [ih]
        by_cases h2 : y = k
        · subst h2
          simp [h1]
        · simp [h2]

theorem memDeleteStep_lookup_none {st : InMemoryStorage} {uid x y : String}
    (h : alookup st.urls y = none) :
    alookup (memDeleteStep st uid x).urls y = none := by
  unfold memDeleteStep
  rcases h1 : alookup st.urls x with _ | v
  · simp [h1, h]
  · simp only [h1, Option.isSome_some, if_true]
    rw [alookup_mapErase]
    by_cases h2 : y = x
    · simp [h2]
    · simp [h2, h]

theorem memDeleteStep_lookup_self (st : InMemoryStorage) (uid s : String) :
    alookup (memDeleteStep st uid s).urls s = none := by
  unfold memDeleteStep
  by_cases h1 : (alookup st.urls s).isSome
  · simp only [h1, if_true]
    rw [alookup_mapErase]
    simp
  · simp only [h1, if_false]
    rcases h2 : alookup st.urls s with _ | v
    · exact h2
    · rw [h2] at h1
      simp at h1

theorem memBatchDelete_fold_none {uid : String} {ids : List String}
    {st : InMemoryStorage} {s : String} (h : alookup st.urls s = none) :
    alookup (ids.foldl (fun t sid => memDeleteStep t uid sid) st).urls s
      = none := by
  induction ids generalizing st with
  | nil => exact h
  | cons x rest ih =>
      exact ih (memDeleteStep_lookup_none h)

theorem memBatchDelete_fold_mem {uid s : String} :
    ∀ (ids : List String) (st : InMemoryStorage), s ∈ ids →
    alookup (ids.foldl (fun t sid => memDeleteStep t uid sid) st).urls s
      = none := by
  intro ids
  induction ids with
  | nil => intro st h; cases h
  | cons x rest ih =>
      intro st h
      rw [List.foldl_cons]
      by_cases h1 : x = s
      · subst h1
        exact memBatchDelete_fold_none (memDeleteStep_lookup_self st uid x)
      · have h2 : s ∈ rest := by
          rcases List.mem_cons.mp h with h3 | h3
          · exact absurd h3.symm h1
          · exact h3
        exact ih _ h2

theorem memBatchDelete_lookup_none {st : InMemoryStorage} {uid s : String}
    {ids : List String} (h : s ∈ ids) :
    alookup (st.batchDeleteUserURLs uid ids).urls s = none :=
  memBatchDelete_fold_mem ids st h

/-! ### Row lemmas for the relational backend -/

theorem findRow_short_id {l : List PGRow} {s : String} {r : PGRow}
    (h : findRow l s = some r) : r.short_id = s := by
  induction l with
  | nil => cases h
  | cons q rest ih =>
      by_cases h1 : q.short_id = s
      · rw [findRow, if_pos h1] at h
        cases h
        exact h1
      · rw [findRow, if_neg h1] at h
        exact ih h

theorem findRow_map {l : List PGRow} {s : String} {f : PGRow → PGRow}
    (hf : ∀ r, (f r).short_id = r.short_id) :
    findRow (l.map f) s = (findRow l s).map f := by
  induction l with
  | nil => rfl
  | cons q rest ih =>
      by_cases h1 : q.short_id = s
      · simp [findRow, hf, h1]
      · simp [findRow, hf, h1, ih]

theorem findRow_isSome_of_mem {l : List PGRow} {s : String} {r : PGRow}
    (hmem : r ∈ l) (hs : r.short_id = s) : (findRow l s).isSome := by
  induction l with
  | nil => cases hmem
  | cons q rest ih =>
      by_cases h1 : q.short_id = s
      · simp [findRow, h1]
      · rw [findRow, if_neg h1]
        rcases List.mem_cons.mp hmem with h2 | h2
        · subst h2
          exact absurd hs h1
        · exact ih h2

/-- C2 counterexample: in the volatile backend a deletion applied by the
owning user physically removes the mapping, so Expand afterwards reports
NotFound, not Gone as the claim states. -/
theorem expand_after_delete_not_gone :
    (InMemoryStorage.batchDeleteUserURLs
        ⟨[("s1", "http://u")], [("A", ["s1"])]⟩ "A" ["s1"]).get "s1"
      = .notFound ∧
    GetResult.notFound ≠ GetResult.gone := by decide

/-- C2 amended: Expand returns the original URL while the mapping is
present and undeleted in both backends; after a deletion is applied, the
relational backend answers Gone (distinct from NotFound, which it answers
when no row exists), while the volatile backend has physically removed
the mapping and answers NotFound. -/
theorem expand_roundtrip_until_deleted :
    (∀ (st : InMemoryStorage) (s u : String),
        alookup st.urls s = some u → st.get s = .found u) ∧
    (∀ (st : InMemoryStorage) (uid s : String) (ids : List String),
        s ∈ ids → (st.batchDeleteUserURLs uid ids).get s = .notFound) ∧
    (∀ (st : PostgresStorage) (s : String) (r : PGRow),
        findRow st.rows s = some r → r.is_deleted = false →
        st.get s = .found r.original_url) ∧
    (∀ (st : PostgresStorage) (uid s : String) (ids : List String) (r : PGRow),
        findRow st.rows s = some r → r.user_id = some uid → s ∈ ids →
        (st.batchDeleteUserURLs uid ids).get s = .gone) ∧
    (∀ (st : PostgresStorage) (s : String),
        findRow st.rows s = none → st.get s = .notFound) := by
  refine ⟨?_, ?_, ?_, ?_, ?_⟩
  · intro st s u h
    unfold InMemoryStorage.get
    rw [h]
  · intro st uid s ids h
    unfold InMemoryStorage.get
    rw [memBatchDelete_lookup_none h]
  · intro st s r h hd
    unfold PostgresStorage.get
    rw [h]
    simp [hd]
  · intro st uid s ids r hfind huid hids
    have hne : ids ≠ [] := by
      intro hcon
      rw [hcon] at hids
      cases hids
    unfold PostgresStorage.batchDeleteUserURLs
    rw [if_neg hne]
    unfold PostgresStorage.get
    have hpres : ∀ q : PGRow,
        ((fun r0 => if r0.user_id = some uid ∧ r0.short_id ∈ ids
            then { r0 with is_deleted := true } else r0) q).short_id
          = q.short_id := by
      intro q
      by_cases hq : q.user_id = some uid ∧ q.short_id ∈ ids <;> simp [hq]
    rw [findRow_map hpres, hfind]
    have hcond : r.user_id = some uid ∧ r.short_id ∈ ids :=
      ⟨huid, (findRow_short_id hfind).symm ▸ hids⟩
    simp [hcond]
  · intro st s h
    unfold PostgresStorage.get
    rw [h]

/-- Witness for C2 amended at a concrete store for each conjunct. -/
theorem expand_roundtrip_until_deleted_witness :
    InMemoryStorage.get ⟨[("s1", "http://u")], []⟩ "s1" = .found "http://u" ∧
    (InMemoryStorage.batchDeleteUserURLs
        ⟨[("s1", "http://u")], [("A", ["s1"])]⟩ "A" ["s1"]).get "s1"
      = .notFound ∧
    PostgresStorage.get ⟨[⟨"s1", "http://u", some "A", false⟩]⟩ "s1"
      = .found "http://u" ∧
    (PostgresStorage.batchDeleteUserURLs
        ⟨[⟨"s1", "http://u", some "A", false⟩]⟩ "A" ["s1"]).get "s1"
      = .gone ∧
    PostgresStorage.get ⟨[⟨"s1", "http://u", some "A", false⟩]⟩ "s2"
      = .notFound :=
  ⟨expand_roundtrip_until_deleted.1 _ "s1" "http://u" (by decide),
   expand_roundtrip_until_deleted.2.1 _ "A" "s1" ["s1"] (by decide),
   expand_roundtrip_until_deleted.2.2.1 _ "s1"
     ⟨"s1", "http://u", some "A", false⟩ (by decide) (by decide),
   expand_roundtrip_until_deleted.2.2.2.1 _ "A" "s1" ["s1"]
     ⟨"s1", "http://u", some "A", false⟩ (by decide) (by decide) (by decide),
   expand_roundtrip_until_deleted.2.2.2.2 _ "s2" (by decide)⟩

/-! ### Frame lemmas for batch deletion and batch save -/

theorem pgBatchDelete_frame {st : PostgresStorage} {uid : String}
    {ids : List String} {r : PGRow} (hmem : r ∈ st.rows)
    (hown : r.user_id ≠ some uid) :
    r ∈ (st.batchDeleteUserURLs uid ids).rows := by
  unfold PostgresStorage.batchDeleteUserURLs
  by_cases h1 : ids = []
  · simp [h1, hmem]
  · rw [if_neg h1]
    refine List.mem_map.mpr ⟨r, hmem, ?_⟩
    have hcon : ¬ (r.user_id = some uid ∧ r.short_id ∈ ids) := by
      intro hcon
      exact hown hcon.1
    simp [hcon]

/-- C3: the claim holds for the relational backend (frame property: rows
of other owners are untouched by BatchDeleteUserURLs), but the volatile
backend removes any existing mapping named in the list regardless of its
stored owner: at the concrete failing input, user A's delete request for
a shortID owned by B erases B's mapping, while the relational backend at
the matching state leaves it unchanged. -/
theorem batchDelete_ownership_divergence :
    (∀ (st : PostgresStorage) (uid : String) (ids : List String) (r : PGRow),
        r ∈ st.rows → r.user_id ≠ some uid →
        r ∈ (st.batchDeleteUserURLs uid ids).rows) ∧
    (InMemoryStorage.batchDeleteUserURLs
        ⟨[("s1", "http://u")], [("B", ["s1"])]⟩ "A" ["s1"]).urls = [] ∧
    PostgresStorage.batchDeleteUserURLs
        ⟨[⟨"s1", "http://u", some "B", false⟩]⟩ "A" ["s1"]
      = ⟨[⟨"s1", "http://u", some "B", false⟩]⟩ := by
  refine ⟨fun st uid ids r h1 h2 => pgBatchDelete_frame h1 h2, by decide, by decide⟩

/-- Witness for C3's universal conjunct at a concrete store. -/
theorem batchDelete_ownership_divergence_witness :
    (⟨"s1", "http://u", some "B", false⟩ : PGRow) ∈
      (PostgresStorage.batchDeleteUserURLs
        ⟨[⟨"s1", "http://u", some "B", false⟩]⟩ "A" ["s1"]).rows :=
  batchDelete_ownership_divergence.1 _ "A" ["s1"] _ (by decide) (by decide)

/-- C4 counterexample: in the volatile backend, SaveBatch on a shortID
already owned by B with a pair carrying owner A links the mapping to A as
well — an existing owner is supplemented by a different owner. -/
theorem saveBatch_second_owner_counterexample :
    alookup (InMemoryStorage.saveBatch ⟨[("s1", "http://u")], [("B", ["s1"])]⟩
        [⟨"s1", "http://u", "A"⟩]).users "A" = some ["s1"] ∧
    alookup (InMemoryStorage.saveBatch ⟨[("s1", "http://u")], [("B", ["s1"])]⟩
        [⟨"s1", "http://u", "A"⟩]).users "B" = some ["s1"] := by decide

theorem pgUpsert_preserves_owned {rows : List PGRow} {p : URLPair} {r : PGRow}
    (hmem : r ∈ rows) (hown : r.user_id ≠ none) : r ∈ pgUpsert rows p := by
  unfold pgUpsert
  by_cases h1 : (findRow rows p.ShortID).isSome
  · rw [if_pos h1]
    refine List.mem_map.mpr ⟨r, hmem, ?_⟩
    have hcon : ¬ (r.short_id = p.ShortID ∧ r.user_id = none) := by
      intro hcon
      exact hown hcon.2
    simp [hcon]
  · rw [if_neg h1]
    exact List.mem_append_left _ hmem

theorem pgSaveBatch_fold_preserves_owned {r : PGRow} (hown : r.user_id ≠ none) :
    ∀ (pairs : List URLPair) (rows : List PGRow), r ∈ rows →
      r ∈ pairs.foldl pgUpsert rows := by
  intro pairs
  induction pairs with
  | nil => intro rows h; exact h
  | cons p rest ih =>
      intro rows h
      rw [List.foldl_cons]
      exact ih _ (pgUpsert_preserves_owned h hown)

theorem users_mk (a : List (String × String))
    (b : List (String × List String)) :
    (InMemoryStorage.mk a b).users = b := rfl

theorem memSaveURLStep_users (s : InMemoryStorage) (p : URLPair) :
    (memSaveURLStep s p).users = s.users := by
  unfold memSaveURLStep
  by_cases h : (alookup s.urls p.ShortID).isSome <;> simp [h]

theorem memLinkUserStep_users_mono {st : InMemoryStorage} {q : URLPair}
    {u x : String} (h : x ∈ (alookup st.users u).getD []) :
    x ∈ (alookup (memLinkUserStep st q).users u).getD [] := by
  unfold memLinkUserStep
  by_cases h2 : q.UserID = ""
  · simpa [h2] using h
  · rw [if_neg h2]
    simp only []
    by_cases h3 : q.ShortID ∈ (alookup st.users q.UserID).getD []
    · simpa [h3] using h
    · rw [if_neg h3]
      by_cases h4 : u = q.UserID
      · subst h4
        rw [users_mk, alookup_mapInsert_self, Option.getD_some]
        exact List.mem_append_left _ h
      · rw [users_mk, alookup_mapInsert_ne _ _ _ _ h4]
        exact h

theorem memSaveBatchStep_users_mono {st : InMemoryStorage} {q : URLPair}
    {u x : String} (h : x ∈ (alookup st.users u).getD []) :
    x ∈ (alookup (memSaveBatchStep st q).users u).getD [] := by
  unfold memSaveBatchStep
  refine memLinkUserStep_users_mono ?_
  rw [memSaveURLStep_users]
  exact h

theorem memSaveBatch_fold_mono {u x : String} :
    ∀ (pairs : List URLPair) (st : InMemoryStorage),
      x ∈ (alookup st.users u).getD [] →
      x ∈ (alookup (pairs.foldl memSaveBatchStep st).users u).getD [] := by
  intro pairs
  induction pairs with
  | nil => intro st h; exact h
  | cons q rest ih =>
      intro st h
      rw [List.foldl_cons]
      exact ih _ (memSaveBatchStep_users_mono h)

theorem memLinkUserStep_users_self {st : InMemoryStorage} {q : URLPair}
    (h : q.UserID ≠ "") :
    q.ShortID ∈ (alookup (memLinkUserStep st q).users q.UserID).getD [] := by
  unfold memLinkUserStep
  rw [if_neg h]
  simp only []
  by_cases h3 : q.ShortID ∈ (alookup st.users q.UserID).getD []
  · rw [if_pos h3]
    exact h3
  · rw [if_neg h3, users_mk, alookup_mapInsert_self, Option.getD_some]
    exact List.mem_append_right _ (List.mem_singleton.mpr rfl)

theorem memSaveBatchStep_users_self {st : InMemoryStorage} {q : URLPair}
    (h : q.UserID ≠ "") :
    q.ShortID ∈ (alookup (memSaveBatchStep st q).users q.UserID).getD [] :=
  memLinkUserStep_users_self h

/-- C4 amended: in the relational backend ownership is first-writer-wins —
a row whose user_id is already non-NULL is preserved verbatim by SaveBatch
(never overwritten or supplemented), and a row with NULL user_id and a
matching shortID gets the pair's owner attached; in the volatile backend
SaveBatch instead links the pair's owner to the shortID whenever that
owner is not yet linked, even when the mapping is already owned by a
different user, so a mapping can end up associated with several owners. -/
theorem saveBatch_ownership_amended :
    (∀ (st : PostgresStorage) (pairs : List URLPair) (r : PGRow),
        r ∈ st.rows → r.user_id ≠ none → r ∈ (st.saveBatch pairs).rows) ∧
    (∀ (rows : List PGRow) (p : URLPair) (r : PGRow),
        r ∈ rows → r.short_id = p.ShortID → r.user_id = none →
        { r with user_id := some p.UserID } ∈ pgUpsert rows p) ∧
    (∀ (st : InMemoryStorage) (pairs : List URLPair) (p : URLPair),
        p ∈ pairs → p.UserID ≠ "" →
        p.ShortID ∈ (alookup (st.saveBatch pairs).users p.UserID).getD []) := by
  refine ⟨?_, ?_, ?_⟩
  · intro st pairs r h1 h2
    exact pgSaveBatch_fold_preserves_owned h2 pairs st.rows h1
  · intro rows p r hmem hsid huid
    unfold pgUpsert
    rw [if_pos (findRow_isSome_of_mem hmem hsid)]
    refine List.mem_map.mpr ⟨r, hmem, ?_⟩
    simp [hsid, huid]
  · intro st pairs p hp hne
    unfold InMemoryStorage.saveBatch
    induction pairs generalizing st with
    | nil => cases hp
    | cons q rest ih =>
        rw [List.foldl_cons]
        rcases List.mem_cons.mp hp with h1 | h1
        · subst h1
          exact memSaveBatch_fold_mono rest _ (memSaveBatchStep_users_self hne)
        · exact ih _ h1

/-- Witness for C4 amended at concrete stores. -/
theorem saveBatch_ownership_amended_witness :
    (⟨"s1", "http://u", some "B", false⟩ : PGRow) ∈
      (PostgresStorage.saveBatch ⟨[⟨"s1", "http://u", some "B", false⟩]⟩
        [⟨"s1", "http://u2", "A"⟩]).rows ∧
    (⟨"s1", "http://u", some "A", false⟩ : PGRow) ∈
      pgUpsert [⟨"s1", "http://u", none, false⟩] ⟨"s1", "http://u", "A"⟩ ∧
    "s1" ∈ (alookup (InMemoryStorage.saveBatch
        ⟨[("s1", "http://u")], [("B", ["s1"])]⟩
        [⟨"s1", "http://u", "A"⟩]).users "A").getD [] :=
  ⟨saveBatch_ownership_amended.1 _ _ _ (by decide) (by decide),
   saveBatch_ownership_amended.2.1 _ ⟨"s1", "http://u", "A"⟩
     ⟨"s1", "http://u", none, false⟩ (by decide) (by decide) (by decide),
   saveBatch_ownership_amended.2.2 _ _ ⟨"s1", "http://u", "A"⟩
     (by decide) (by decide)⟩

/-! ### Collector invariants -/

theorem collectorRun_batches_bounded :
    ∀ (es : List CollectorEvent) (s : List DeleteRequest),
      s.length < maxBatchSize →
      (∀ b ∈ (collectorRun s es).1, b ≠ [] ∧ b.length ≤ maxBatchSize) ∧
      (collectorRun s es).2.length < maxBatchSize := by
  intro es
  induction es with
  | nil =>
      intro s hs
      refine ⟨?_, hs⟩
      intro b hb
      simp [collectorRun] at hb
  | cons e rest ih =>
      intro s hs
      rcases e with r | _ | _
      · by_cases h1 : maxBatchSize ≤ s.length + 1
        · have hstep : collectorStep s (.recv r) = ([], [s ++ [r]]) := by
            simp [collectorStep, h1]
          have hrun : collectorRun s (.recv r :: rest)
              = ((s ++ [r]) :: (collectorRun [] rest).1,
                 (collectorRun [] rest).2) := by
            simp [collectorRun, hstep]
          rw [hrun]
          have hlen : (s ++ [r]).length ≤ maxBatchSize := by
            rw [List.length_append, List.length_singleton]
            exact Nat.succ_le_of_lt hs
          have hrest := ih [] (by simp [maxBatchSize])
          refine ⟨?_, hrest.2⟩
          intro b hb
          rcases List.mem_cons.mp hb with h2 | h2
          · subst h2
            exact ⟨by simp, hlen⟩
          · exact hrest.1 b h2
        · have hstep : collectorStep s (.recv r) = (s ++ [r], []) := by
            simp [collectorStep, h1]
          have hrun : collectorRun s (.recv r :: rest)
              = ((collectorRun (s ++ [r]) rest).1,
                 (collectorRun (s ++ [r]) rest).2) := by
            simp [collectorRun, hstep]
          rw [hrun]
          have h2 : (s ++ [r]).length < maxBatchSize := by
            rw [List.length_append, List.length_singleton]
            exact Nat.lt_of_not_le h1
          exact ih (s ++ [r]) h2
      · by_cases h1 : s = []
        · have hstep : collectorStep s .timerFire = (s, []) := by
            simp [collectorStep, h1]
          have hrun : collectorRun s (.timerFire :: rest)
              = ((collectorRun s rest).1, (collectorRun s rest).2) := by
            simp [collectorRun, hstep]
          rw [hrun]
          exact ih s hs
        · have hstep : collectorStep s .timerFire = ([], [s]) := by
            simp [collectorStep, h1]
          have hrun : collectorRun s (.timerFire :: rest)
              = (s :: (collectorRun [] rest).1, (collectorRun [] rest).2) := by
            simp [collectorRun, hstep]
          rw [hrun]
          have hrest := ih [] (by simp [maxBatchSize])
          refine ⟨?_, hrest.2⟩
          intro b hb
          rcases List.mem_cons.mp hb with h2 | h2
          · subst h2
            exact ⟨h1, Nat.le_of_lt hs⟩
          · exact hrest.1 b h2
      · by_cases h1 : s = []
        · have hrun : collectorRun s (.closed :: rest)
              = ((collectorRun [] rest).1, (collectorRun [] rest).2) := by
            simp [collectorRun, collectorStep, h1]
          rw [hrun]
          exact ih [] (by simp [maxBatchSize])
        · have hrun : collectorRun s (.closed :: rest)
              = (s :: (collectorRun [] rest).1, (collectorRun [] rest).2) := by
            simp [collectorRun, collectorStep, h1]
          rw [hrun]
          have hrest := ih [] (by simp [maxBatchSize])
          refine ⟨?_, hrest.2⟩
          intro b hb
          rcases List.mem_cons.mp hb with h2 | h2
          · subst h2
            exact ⟨h1, Nat.le_of_lt hs⟩
          · exact hrest.1 b h2

/-- C6: along any event trace started with an empty batch, every batch
the collector sends downstream is non-empty and holds at most
maxBatchSize (10) requests; a recv flushes exactly when it brings the
batch to the maximum size; a timer firing flushes any non-empty batch;
and a single request followed by its timeout is flushed alone, the size
trigger never having fired. -/
theorem collector_flush_triggers :
    (∀ (es : List CollectorEvent) (b : List DeleteRequest),
        b ∈ (collectorRun [] es).1 → b ≠ [] ∧ b.length ≤ maxBatchSize) ∧
    (∀ (s : List DeleteRequest) (r : DeleteRequest),
        s.length < maxBatchSize →
        (collectorStep s (.recv r) = ([], [s ++ [r]])
          ↔ s.length + 1 = maxBatchSize)) ∧
    (∀ s : List DeleteRequest, s ≠ [] →
        collectorStep s .timerFire = ([], [s])) ∧
    (∀ r : DeleteRequest, (collectorRun [] [.recv r, .timerFire]).1 = [[r]]) := by
  refine ⟨?_, ?_, ?_, ?_⟩
  · intro es b hb
    exact (collectorRun_batches_bounded es []
      (by simp [maxBatchSize])).1 b hb
  · intro s r hs
    constructor
    · intro heq
      by_cases h1 : maxBatchSize ≤ s.length + 1
      · exact Nat.le_antisymm (Nat.succ_le_of_lt hs) h1
      · have hstep : collectorStep s (.recv r) = (s ++ [r], []) := by
          simp [collectorStep, h1]
        rw [hstep] at heq
        have h2 : s ++ [r] = [] := congrArg Prod.fst heq
        simp at h2
    · intro heq
      have h1 : maxBatchSize ≤ s.length + 1 := heq.ge
      simp [collectorStep, h1]
  · intro s hs
    simp [collectorStep, hs]
  · intro r
    simp [collectorRun, collectorStep, maxBatchSize]

/-- Witness for C6 at a concrete trace and batch. -/
theorem collector_flush_triggers_witness :
    ([{ UserID := "A", ShortIDs := ["s1"] }]
        ∈ (collectorRun []
            [.recv { UserID := "A", ShortIDs := ["s1"] }, .timerFire]).1
      → [{ UserID := "A", ShortIDs := ["s1"] }] ≠ ([] : List DeleteRequest)
        ∧ [({ UserID := "A", ShortIDs := ["s1"] } : DeleteRequest)].length
            ≤ maxBatchSize) ∧
    collectorStep [{ UserID := "A", ShortIDs := ["s1"] }] .timerFire
      = ([], [[{ UserID := "A", ShortIDs := ["s1"] }]]) ∧
    (collectorRun [] [.recv { UserID := "A", ShortIDs := ["s1"] },
        .timerFire]).1 = [[{ UserID := "A", ShortIDs := ["s1"] }]] :=
  ⟨collector_flush_triggers.1
      [.recv { UserID := "A", ShortIDs := ["s1"] }, .timerFire] _,
   collector_flush_triggers.2.2.1 _ (by decide),
   collector_flush_triggers.2.2.2 _⟩

/-! ### Conservation of requests through the collector -/

theorem collectorRun_conservation :
    ∀ (es : List CollectorEvent) (s : List DeleteRequest),
      ((collectorRun s es).1).flatten ++ (collectorRun s es).2
        = s ++ recvPayloads es := by
  intro es
  induction es with
  | nil => intro s; simp [collectorRun, recvPayloads]
  | cons e rest ih =>
      intro s
      rcases e with r | _ | _
      · by_cases h1 : maxBatchSize ≤ s.length + 1
        · have hstep : collectorStep s (.recv r) = ([], [s ++ [r]]) := by
            simp [collectorStep, h1]
          simp [collectorRun, hstep, recvPayloads, ih, List.append_assoc]
        · have hstep : collectorStep s (.recv r) = (s ++ [r], []) := by
            simp [collectorStep, h1]
          simp [collectorRun, hstep, recvPayloads, ih, List.append_assoc]
      · by_cases h1 : s = []
        · have hstep : collectorStep s .timerFire = (s, []) := by
            simp [collectorStep, h1]
          simp [collectorRun, hstep, recvPayloads, ih]
        · have hstep : collectorStep s .timerFire = ([], [s]) := by
            simp [collectorStep, h1]
          simp [collectorRun, hstep, recvPayloads, ih]
      · by_cases h1 : s = []
        · subst h1
          have hstep : collectorStep [] CollectorEvent.closed = ([], []) := by
            simp [collectorStep]
          simp [collectorRun, hstep, recvPayloads, ih]
        · have hstep : collectorStep s .closed = ([], [s]) := by
            simp [collectorStep, h1]
          simp [collectorRun, hstep, recvPayloads, ih]

theorem collectorRun_closed_last :
    ∀ (es : List CollectorEvent) (s : List DeleteRequest),
      (collectorRun s (es ++ [CollectorEvent.closed])).2 = [] := by
  intro es
  induction es with
  | nil =>
      intro s
      by_cases h : s = [] <;> simp [collectorRun, collectorStep, h]
  | cons e rest ih =>
      intro s
      simp only [List.cons_append, collectorRun]
      exact ih _

theorem recvPayloads_close (pending : List DeleteRequest) :
    recvPayloads (pending.map CollectorEvent.recv ++ [CollectorEvent.closed])
      = pending := by
  induction pending with
  | nil => rfl
  | cons r rest ih => simp [recvPayloads, ih]

/-- C8: when the queue is closed, a collector holding a partial batch and
seeing the pending requests drain flushes everything: the concatenation
of the batches it delivers downstream is exactly its current batch
followed by the pending requests, it terminates holding nothing, and a
non-empty partial batch is flushed by the closure event itself. -/
theorem close_drains_pipeline :
    (∀ (batch pending : List DeleteRequest),
        ((collectorRun batch (pending.map CollectorEvent.recv
            ++ [CollectorEvent.closed])).1).flatten = batch ++ pending ∧
        (collectorRun batch (pending.map CollectorEvent.recv
            ++ [CollectorEvent.closed])).2 = []) ∧
    (∀ s : List DeleteRequest, s ≠ [] →
        collectorStep s .closed = ([], [s])) := by
  constructor
  · intro batch pending
    have h2 := collectorRun_closed_last (pending.map CollectorEvent.recv) batch
    have h1 := collectorRun_conservation
      (pending.map CollectorEvent.recv ++ [CollectorEvent.closed]) batch
    rw [h2, List.append_nil, recvPayloads_close] at h1
    exact ⟨h1, h2⟩
  · intro s hs
    simp [collectorStep, hs]

/-- Witness for C8 at a concrete batch and queue. -/
theorem close_drains_pipeline_witness :
    ((collectorRun [{ UserID := "A", ShortIDs := ["s1"] }]
        ([{ UserID := "B", ShortIDs := ["s2"] }].map CollectorEvent.recv
          ++ [CollectorEvent.closed])).1).flatten
      = [{ UserID := "A", ShortIDs := ["s1"] },
         { UserID := "B", ShortIDs := ["s2"] }] ∧
    collectorStep [{ UserID := "A", ShortIDs := ["s1"] }] .closed
      = ([], [[{ UserID := "A", ShortIDs := ["s1"] }]]) :=
  ⟨(close_drains_pipeline.1 [{ UserID := "A", ShortIDs := ["s1"] }]
      [{ UserID := "B", ShortIDs := ["s2"] }]).1,
   close_drains_pipeline.2 _ (by decide)⟩

/-! ### The short-ID generator -/

theorem b64char_mem (n : Nat) : b64char n ∈ b64url := by
  unfold b64char
  rw [List.getD_eq_getElem?_getD]
  rcases h : b64url[n]? with _ | c
  · simp only [Option.getD_none]
    decide
  · obtain ⟨hlt, hc⟩ := List.getElem?_eq_some_iff.mp h
    subst hc
    simp only [Option.getD_some]
    exact List.getElem_mem hlt

/-- C9: generateShortID fails exactly when the randomness source fails;
on success with a 6-byte read it returns the full URL-safe base64
encoding (the [:8] truncation is the identity on the 8 characters
produced), which has length 8 and draws every character from the
URL-safe base64 alphabet. -/
theorem generateShortID_contract :
    (∀ (bytes : List Nat), bytes.length = 6 → (∀ x ∈ bytes, x < 256) →
        generateShortID (some bytes) = some ((b64encode bytes).asString) ∧
        (b64encode bytes).length = 8 ∧
        ∀ c ∈ b64encode bytes, c ∈ b64url) ∧
    generateShortID none = none := by
  constructor
  · intro bytes h6 hb
    match bytes, h6 with
    | [a, b, c, d, e, f], _ =>
      refine ⟨rfl, rfl, ?_⟩
      intro ch hch
      have hcases : ch = b64char (a / 4) ∨ ch = b64char (a % 4 * 16 + b / 16)
          ∨ ch = b64char (b % 16 * 4 + c / 64) ∨ ch = b64char (c % 64)
          ∨ ch = b64char (d / 4) ∨ ch = b64char (d % 4 * 16 + e / 16)
          ∨ ch = b64char (e % 16 * 4 + f / 64) ∨ ch = b64char (f % 64) := by
        simpa [b64encode, encode3] using hch
      rcases hcases with h | h | h | h | h | h | h | h <;>
        (subst h; exact b64char_mem _)
  · rfl

/-- Witness for C9 at a concrete byte string. -/
theorem generateShortID_contract_witness :
    generateShortID (some [0, 1, 2, 3, 4, 5])
      = some ((b64encode [0, 1, 2, 3, 4, 5]).asString) ∧
    (b64encode [0, 1, 2, 3, 4, 5]).length = 8 ∧
    generateShortID none = none :=
  ⟨(generateShortID_contract.1 [0, 1, 2, 3, 4, 5] (by decide) (by decide)).1,
   (generateShortID_contract.1 [0, 1, 2, 3, 4, 5] (by decide) (by decide)).2.1,
   generateShortID_contract.2⟩

/-! ### Grouping lemmas for the batch applier -/

theorem specOwnerConcat_cons (r : DeleteRequest) (rest : List DeleteRequest)
    (uid : String) :
    specOwnerConcat (r :: rest) uid
      = if r.UserID = uid then r.ShortIDs ++ specOwnerConcat rest uid
        else specOwnerConcat rest uid := rfl

theorem userBatches_lookup_some {uid : String} :
    ∀ (batch : List DeleteRequest) (acc : List (String × List String))
      (l : List String), alookup acc uid = some l →
      alookup (userBatches batch acc) uid
        = some (l ++ specOwnerConcat batch uid) := by
  intro batch
  induction batch with
  | nil =>
      intro acc l h
      simpa [userBatches, specOwnerConcat] using h
  | cons r rest ih =>
      intro acc l h
      unfold userBatches
      rw [specOwnerConcat_cons]
      by_cases h1 : r.UserID = uid
      · rw [h1]
        rw [h, Option.getD_some]
        rw [ih _ (l ++ r.ShortIDs) (alookup_mapInsert_self _ _ _)]
        rw [if_pos rfl, List.append_assoc]
      · have h2 : alookup (mapInsert acc r.UserID
            ((alookup acc r.UserID).getD [] ++ r.ShortIDs)) uid = some l := by
          rw [alookup_mapInsert_ne _ _ _ _ (fun hc => h1 hc.symm)]
          exact h
        rw [ih _ _ h2]
        rw [if_neg h1]

theorem userBatches_lookup_none {uid : String} :
    ∀ (batch : List DeleteRequest) (acc : List (String × List String)),
      alookup acc uid = none → (∀ r ∈ batch, r.UserID ≠ uid) →
      alookup (userBatches batch acc) uid = none := by
  intro batch
  induction batch with
  | nil =>
      intro acc h _
      simpa [userBatches] using h
  | cons r rest ih =>
      intro acc h hall
      unfold userBatches
      refine ih _ ?_ (fun q hq => hall q (List.mem_cons_of_mem _ hq))
      rw [alookup_mapInsert_ne _ _ _ _
        (fun hc => hall r (List.mem_cons_self _ _) hc.symm)]
      exact h

theorem userBatches_lookup_mem {uid : String} :
    ∀ (batch : List DeleteRequest) (acc : List (String × List String)),
      alookup acc uid = none → uid ∈ batch.map DeleteRequest.UserID →
      alookup (userBatches batch acc) uid
        = some (specOwnerConcat batch uid) := by
  intro batch
  induction batch with
  | nil =>
      intro acc _ hm
      cases hm
  | cons r rest ih =>
      intro acc h hm
      unfold userBatches
      rw [specOwnerConcat_cons]
      by_cases h1 : r.UserID = uid
      · rw [h1]
        rw [h, Option.getD_none]
        rw [userBatches_lookup_some rest _ _ (alookup_mapInsert_self _ _ _)]
        rw [if_pos rfl]
        simp
      · have hm2 : uid ∈ rest.map DeleteRequest.UserID := by
          rcases List.mem_map.mp hm with ⟨q, hq, hq2⟩
          rcases List.mem_cons.mp hq with h3 | h3
          · exact absurd (h3 ▸ hq2) h1
          · exact List.mem_map.mpr ⟨q, h3, hq2⟩
        have h2 : alookup (mapInsert acc r.UserID
            ((alookup acc r.UserID).getD [] ++ r.ShortIDs)) uid = none := by
          rw [alookup_mapInsert_ne _ _ _ _ (fun hc => h1 hc.symm)]
          exact h
        rw [ih _ h2 hm2]
        rw [if_neg h1]

theorem mapInsert_keys {α : Type} (l : List (String × α)) (k : String)
    (v : α) :
    (mapInsert l k v).map Prod.fst
      = if k ∈ l.map Prod.fst then l.map Prod.fst
        else l.map Prod.fst ++ [k] := by
  induction l with
  | nil => simp [mapInsert]
  | cons p rest ih =>
      obtain ⟨k1, v1⟩ := p
      by_cases h : k1 = k
      · subst h
        simp [mapInsert]
      · by_cases h2 : k ∈ rest.map Prod.fst
        · simp [mapInsert, h, ih, h2, Ne.symm h]
        · simp [mapInsert, h, ih, h2, Ne.symm h]

theorem userBatches_keys_nodup :
    ∀ (batch : List DeleteRequest) (acc : List (String × List String)),
      (acc.map Prod.fst).Nodup →
      ((userBatches batch acc).map Prod.fst).Nodup := by
  intro batch
  induction batch with
  | nil =>
      intro acc h
      simpa [userBatches] using h
  | cons r rest ih =>
      intro acc h
      unfold userBatches
      refine ih _ ?_
      rw [mapInsert_keys]
      by_cases h2 : r.UserID ∈ acc.map Prod.fst
      · rwa [if_pos h2]
      · rw [if_neg h2]
        simp [List.nodup_append, h, h2]

/-- C7: the batch applier's grouping map holds, for each owner appearing
in the batch and only those, the concatenation of that owner's shortID
lists in batch order; its keys are pairwise distinct, so exactly one
BatchDeleteUserURLs call is issued per distinct owner; and a store error
on one owner's call leaves the state as it was and does not prevent the
remaining owners' calls (the loop discards the error, so nothing is
propagated or retried). -/
theorem processBatch_groups_by_owner :
    (∀ (batch : List DeleteRequest) (uid : String) (ids : List String),
        alookup (userBatches batch []) uid = some ids →
        ids = specOwnerConcat batch uid) ∧
    (∀ (batch : List DeleteRequest) (uid : String),
        (alookup (userBatches batch []) uid).isSome
          ↔ uid ∈ batch.map DeleteRequest.UserID) ∧
    (∀ batch : List DeleteRequest,
        ((userBatches batch []).map Prod.fst).Nodup) ∧
    (∀ (σ : Type) (op : String → List String → σ → Option σ)
        (g : String × List String) (gs : List (String × List String)) (st : σ),
        op g.1 g.2 st = none →
        applyCalls op (g :: gs) st = applyCalls op gs st) := by
  refine ⟨?_, ?_, ?_, ?_⟩
  · intro batch uid ids h
    by_cases hm : uid ∈ batch.map DeleteRequest.UserID
    · rw [userBatches_lookup_mem batch [] rfl hm] at h
      exact (Option.some_inj.mp h).symm
    · rw [userBatches_lookup_none batch [] rfl
        (fun r hr hc => hm (List.mem_map.mpr ⟨r, hr, hc⟩))] at h
      cases h
  · intro batch uid
    constructor
    · intro hs
      by_contra hm
      rw [userBatches_lookup_none batch [] rfl
        (fun r hr hc => hm (List.mem_map.mpr ⟨r, hr, hc⟩))] at hs
      simp at hs
    · intro hm
      rw [userBatches_lookup_mem batch [] rfl hm]
      rfl
  · intro batch
    exact userBatches_keys_nodup batch [] (by simp)
  · intro σ op g gs st hop
    simp only [applyCalls, hop]

/-- Witness for C7: grouping of a concrete batch and continuation past a
failing call. -/
theorem processBatch_groups_by_owner_witness :
    (["1", "3"] : List String)
      = specOwnerConcat [{ UserID := "A", ShortIDs := ["1"] },
          { UserID := "B", ShortIDs := ["2"] },
          { UserID := "A", ShortIDs := ["3"] }] "A" ∧
    applyCalls (fun _ _ _ => (none : Option Nat))
        [("A", ["1"]), ("B", ["2"])] 0
      = applyCalls (fun _ _ _ => (none : Option Nat)) [("B", ["2"])] 0 :=
  ⟨processBatch_groups_by_owner.1
      [{ UserID := "A", ShortIDs := ["1"] },
       { UserID := "B", ShortIDs := ["2"] },
       { UserID := "A", ShortIDs := ["3"] }] "A" ["1", "3"] (by decide),
   processBatch_groups_by_owner.2.2.2 Nat (fun _ _ _ => none)
      ("A", ["1"]) [("B", ["2"])] 0 rfl⟩

end Shortener
